import Mathlib

/-!
Formal model of the personal-finance-tracker upload/harmonization pipeline
and dashboard computations.  The data model and the HTTP client are embedded
from the TypeScript frontend (the `ParsedTransaction` family of interfaces and
`uploadApi` in the API module, and the upload stepper in `DataManagement.vue`,
the filter/aggregation functions in `Dashboard.vue`).  The backend pipeline
(preprocess / harmonize / commit) is not part of the sources here, so those
operations are modelled from the design specification, as marked in their
doc comments.  Amounts are modelled as exact rationals.
-/

/-- Canonical parsed transaction, embedded from the frontend
`ParsedTransaction` interface: `bank_name`, `account_name`, `date` (ISO
string), `amount` (signed number), optional `description`, `details`,
`category`, `transaction_type`, and the `is_special` flag. -/
structure ParsedTransaction where
  bank_name : String
  account_name : String
  date : String
  amount : ℚ
  description : Option String
  details : Option String
  category : Option String
  transaction_type : Option String
  is_special : Bool
  deriving DecidableEq, Repr

/-- Modelled from the spec: `StoredTransaction` (§3), the persisted entity —
a superset of `ParsedTransaction` plus `id`, `created_at`, `updated_at`.
The backend storage layer is not part of the sources. -/
structure StoredTransaction where
  id : Nat
  bank_name : String
  account_name : String
  date : String
  amount : ℚ
  description : Option String
  details : Option String
  category : Option String
  transaction_type : Option String
  is_special : Bool
  created_at : String
  updated_at : String
  deriving DecidableEq, Repr

/-- Embedded from the frontend `HarmonizationResult` interface:
`{new_transactions, duplicate_transactions}`. -/
structure HarmonizationResult where
  new_transactions : List ParsedTransaction
  duplicate_transactions : List ParsedTransaction
  deriving DecidableEq, Repr

/-- Embedded from the frontend `CommitResult` interface:
`{inserted_count, message}`. -/
structure CommitResult where
  inserted_count : Nat
  message : String
  deriving DecidableEq, Repr

/-- Warning type tags of the frontend `UploadWarning` interface. -/
inductive WarningType
  | filtered_row
  | duplicate
  | parsing_error
  deriving DecidableEq, Repr

/-- Embedded from the frontend `UploadWarning` interface; the open-ended
`details` record is modelled as a key/value list. -/
structure UploadWarning where
  type : WarningType
  message : String
  details : List (String × String)
  deriving DecidableEq, Repr

/-- Embedded from the frontend `PreprocessingResult` interface: `date_range`
is a required object with required string fields `first_date`, `last_date`. -/
structure DateRange where
  first_date : String
  last_date : String
  deriving DecidableEq, Repr

/-- Embedded from the frontend `PreprocessingResult` interface (all four
fields required; in particular `date_range` is not optional there). -/
structure PreprocessingResult where
  transactions : List ParsedTransaction
  warnings : List UploadWarning
  date_range : DateRange
  saved_filename : String
  deriving DecidableEq, Repr

/-- Modelled from the spec: the duplicate test of the backend Harmonizer
(§4.3), absent from the sources.  A candidate is a duplicate when some
previously stored transaction in the same `bank_name` + `account_name` scope
has exactly the same `date`, `amount` and `description`. -/
def isStoredDuplicate (stored : List StoredTransaction)
    (c : ParsedTransaction) : Bool :=
  stored.any fun s =>
    decide (s.bank_name = c.bank_name) && decide (s.account_name = c.account_name) &&
      decide (s.date = c.date) && decide (s.amount = c.amount) &&
      decide (s.description = c.description)

/-- Modelled from the spec: the backend Harmonizer (§4.3), absent from the
sources.  `harmonize(candidates) → HarmonizationResult` classifies each
candidate against the stored transactions (passed here explicitly, standing
for the storage query) and splits the input, preserving input order in each
output list. -/
def harmonize (stored : List StoredTransaction)
    (candidates : List ParsedTransaction) : HarmonizationResult where
  new_transactions := candidates.filter fun c => ! isStoredDuplicate stored c
  duplicate_transactions := candidates.filter fun c => isStoredDuplicate stored c

/-- The Boolean duplicate test agrees with the existential duplicate-key
condition of the spec. -/
theorem isStoredDuplicate_iff (stored : List StoredTransaction)
    (c : ParsedTransaction) :
    isStoredDuplicate stored c = true ↔
      ∃ s ∈ stored, s.bank_name = c.bank_name ∧ s.account_name = c.account_name ∧
        s.date = c.date ∧ s.amount = c.amount ∧ s.description = c.description := by
  simp [isStoredDuplicate, List.any_eq_true, and_assoc]

/-- C1: a candidate lands in `duplicate_transactions` iff a stored
transaction with the same `bank_name` and `account_name` matches its
`date`, `amount` and `description` exactly; otherwise it lands in
`new_transactions`. -/
theorem harmonize_duplicate_iff (stored : List StoredTransaction)
    (candidates : List ParsedTransaction) (c : ParsedTransaction)
    (hc : c ∈ candidates) :
    (c ∈ (harmonize stored candidates).duplicate_transactions ↔
      ∃ s ∈ stored, s.bank_name = c.bank_name ∧ s.account_name = c.account_name ∧
        s.date = c.date ∧ s.amount = c.amount ∧ s.description = c.description) ∧
    (c ∈ (harmonize stored candidates).new_transactions ↔
      ¬ ∃ s ∈ stored, s.bank_name = c.bank_name ∧ s.account_name = c.account_name ∧
        s.date = c.date ∧ s.amount = c.amount ∧ s.description = c.description) := by
  constructor
  · rw [← isStoredDuplicate_iff]
    simp [harmonize, List.mem_filter, hc]
  · rw [← isStoredDuplicate_iff]
    simp [harmonize, List.mem_filter, hc]

/-- The stored "Groceries" transaction of the C1 scenario. -/
def groceriesStored : StoredTransaction where
  id := 1
  bank_name := "intesa"
  account_name := "main"
  date := "2024-01-05"
  amount := -42
  description := some "Groceries"
  details := none
  category := none
  transaction_type := none
  is_special := false
  created_at := "2024-01-06T00:00:00"
  updated_at := "2024-01-06T00:00:00"

/-- The freshly parsed "Groceries" candidate of the C1 scenario. -/
def groceriesCand : ParsedTransaction where
  bank_name := "intesa"
  account_name := "main"
  date := "2024-01-05"
  amount := -42
  description := some "Groceries"
  details := none
  category := none
  transaction_type := none
  is_special := false

/-- C1 witness: the scenario candidate with `date=2024-01-05`,
`amount=-42.00`, `description="Groceries"` matching a stored transaction on
that triple goes to `duplicate_transactions`. -/
theorem harmonize_duplicate_iff_witness :
    groceriesCand ∈
      (harmonize [groceriesStored] [groceriesCand]).duplicate_transactions ∧
    groceriesCand ∉
      (harmonize [groceriesStored] [groceriesCand]).new_transactions := by
  have h := harmonize_duplicate_iff [groceriesStored] [groceriesCand]
    groceriesCand (by simp)
  refine ⟨h.1.mpr ⟨groceriesStored, by simp, rfl, rfl, rfl, rfl, rfl⟩, ?_⟩
  intro hmem
  exact (h.2.mp hmem) ⟨groceriesStored, by simp, rfl, rfl, rfl, rfl, rfl⟩

/-- Splitting a list by a predicate preserves element counts. -/
theorem count_filter_add_count_filter_not {α : Type} [DecidableEq α]
    (p : α → Bool) (l : List α) (c : α) :
    (l.filter fun x => ! p x).count c + (l.filter p).count c = l.count c := by
  induction l with
  | nil => simp
  | cons a t ih =>
    cases h : p a <;>
      simp [List.filter_cons, h, List.count_cons, ← ih] <;> split <;> omega

/-- C4: harmonize partitions its input: each output is an order-preserving
sublist of the candidate list, counts add up, and every candidate lands in
exactly one of the two output lists.  (Determinism holds because `harmonize`
is a pure function of the stored transactions and the candidate list.) -/
theorem harmonize_partition_ordered (stored : List StoredTransaction)
    (candidates : List ParsedTransaction) :
    List.Sublist (harmonize stored candidates).new_transactions candidates ∧
    List.Sublist (harmonize stored candidates).duplicate_transactions candidates ∧
    (∀ c, (harmonize stored candidates).new_transactions.count c +
        (harmonize stored candidates).duplicate_transactions.count c =
          candidates.count c) ∧
    (∀ c ∈ candidates,
      (c ∈ (harmonize stored candidates).new_transactions ∧
        c ∉ (harmonize stored candidates).duplicate_transactions) ∨
      (c ∈ (harmonize stored candidates).duplicate_transactions ∧
        c ∉ (harmonize stored candidates).new_transactions)) := by
  refine ⟨List.filter_sublist _, List.filter_sublist _, ?_, ?_⟩
  · intro c
    exact count_filter_add_count_filter_not (isStoredDuplicate stored) candidates c
  · intro c hc
    cases h : isStoredDuplicate stored c with
    | false =>
      exact Or.inl (by simp [harmonize, List.mem_filter, hc, h])
    | true =>
      exact Or.inr (by simp [harmonize, List.mem_filter, hc, h])

/-- C4 witness: partition of a concrete two-candidate list (one duplicate of
the stored "Groceries" row, one fresh). -/
theorem harmonize_partition_ordered_witness :
    groceriesCand ∈
      (harmonize [groceriesStored]
        [groceriesCand, { groceriesCand with date := "2024-02-01" }]).duplicate_transactions ∧
    groceriesCand ∉
      (harmonize [groceriesStored]
        [groceriesCand, { groceriesCand with date := "2024-02-01" }]).new_transactions := by
  have h := (harmonize_partition_ordered [groceriesStored]
    [groceriesCand, { groceriesCand with date := "2024-02-01" }]).2.2.2
    groceriesCand (by simp)
  rcases h with ⟨hn, hd⟩ | ⟨hd, hn⟩
  · exfalso
    have : isStoredDuplicate [groceriesStored] groceriesCand = false := by
      have := (List.mem_filter.mp hn).2
      simpa using this
    rw [isStoredDuplicate] at this
    simp [groceriesStored, groceriesCand] at this
  · exact ⟨hd, hn⟩

/-- Modelled from the spec: the backend Commit Stage (§4.4), absent from the
sources.  The storage collaborator's
`insertTransaction(ParsedTransaction) → StoredTransaction | Error` is passed
as `tryInsert` (`none` standing for a row-level storage failure).  Every row
is attempted in order; a failing row is counted and skipped, and the
remaining rows are still attempted.  Returns the counts together with the
list of rows that persisted. -/
def commitRun (tryInsert : ParsedTransaction → Option StoredTransaction) :
    List ParsedTransaction → Nat × Nat × List StoredTransaction
  | [] => (0, 0, [])
  | t :: ts =>
    let rest := commitRun tryInsert ts
    match tryInsert t with
    | some s => (rest.1 + 1, rest.2.1, s :: rest.2.2)
    | none => (rest.1, rest.2.1 + 1, rest.2.2)

/-- Modelled from the spec: `commit(transactions) → CommitResult` (§4.4).
Row-level failures are aggregated into the result message rather than
raised; `inserted_count` counts the rows that persisted.  The persisted
rows are returned alongside the result. -/
def commit (tryInsert : ParsedTransaction → Option StoredTransaction)
    (txs : List ParsedTransaction) : CommitResult × List StoredTransaction :=
  let r := commitRun tryInsert txs
  ({ inserted_count := r.1
   , message := "Inserted " ++ toString r.1 ++ " transactions, " ++
       toString r.2.1 ++ " failed" }, r.2.2)

/-- C3: commit attempts every row independently: a storage failure on one
row does not abort the rest — the persisted rows are exactly the successful
insertions of the whole input list (in order), `inserted_count` counts
exactly the successfully persisted rows, and failures are reported in the
result (the function is total: no exception reaches the caller). -/
theorem commit_row_isolation
    (tryInsert : ParsedTransaction → Option StoredTransaction)
    (txs : List ParsedTransaction) :
    (commit tryInsert txs).1.inserted_count =
      (txs.filter fun t => (tryInsert t).isSome).length ∧
    (commit tryInsert txs).2 = txs.filterMap tryInsert ∧
    (commit tryInsert txs).1.inserted_count +
      (txs.filter fun t => (tryInsert t).isNone).length = txs.length := by
  have key : ∀ l : List ParsedTransaction,
      (commitRun tryInsert l).1 = (l.filter fun t => (tryInsert t).isSome).length ∧
      (commitRun tryInsert l).2.1 = (l.filter fun t => (tryInsert t).isNone).length ∧
      (commitRun tryInsert l).2.2 = l.filterMap tryInsert := by
    intro l
    induction l with
    | nil => simp [commitRun]
    | cons t ts ih =>
      cases h : tryInsert t with
      | none =>
        simp [commitRun, h, List.filter_cons, List.filterMap_cons, ih.1, ih.2.1, ih.2.2]
      | some s =>
        simp [commitRun, h, List.filter_cons, List.filterMap_cons, ih.1, ih.2.1, ih.2.2]
  refine ⟨(key txs).1, (key txs).2.2, ?_⟩
  have hlen : ∀ l : List ParsedTransaction,
      (l.filter fun t => (tryInsert t).isSome).length +
        (l.filter fun t => (tryInsert t).isNone).length = l.length := by
    intro l
    induction l with
    | nil => simp
    | cons a t ih =>
      cases h : tryInsert a <;> simp [List.filter_cons, h] <;> omega
  show (commitRun tryInsert txs).1 + _ = _
  rw [(key txs).1]
  exact hlen txs

/-- C3 scenario, checked directly on the model: committing five transactions
where the third fails storage-side yields `inserted_count = 4` and the other
four persisted. -/
def rowFailsOn (badDate : String) (t : ParsedTransaction) :
    Option StoredTransaction :=
  if t.date = badDate then none
  else some
    { id := 0, bank_name := t.bank_name, account_name := t.account_name
    , date := t.date, amount := t.amount, description := t.description
    , details := t.details, category := t.category
    , transaction_type := t.transaction_type, is_special := t.is_special
    , created_at := "", updated_at := "" }

/-- The five-row batch of the C3 scenario (dates 01..05, row 3 fails). -/
def fiveRowBatch : List ParsedTransaction :=
  ["2024-01-01", "2024-01-02", "2024-01-03", "2024-01-04", "2024-01-05"].map
    fun d => { groceriesCand with date := d }

/-- C3 scenario evaluated: `inserted_count = 4`, four rows persisted, the
failing row absent, the rows after the failing one still present. -/
theorem commit_five_rows_scenario :
    (commit (rowFailsOn "2024-01-03") fiveRowBatch).1.inserted_count = 4 ∧
    ((commit (rowFailsOn "2024-01-03") fiveRowBatch).2.map fun s => s.date) =
      ["2024-01-01", "2024-01-02", "2024-01-04", "2024-01-05"] := by
  constructor <;> rfl

/-- A left fold with `min` lands on an element of the seed-extended list. -/
theorem foldl_min_mem {α : Type} [LinearOrder α] (ds : List α) (d : α) :
    ds.foldl min d ∈ d :: ds := by
  induction ds generalizing d with
  | nil => simp
  | cons a t ih =>
    simp only [List.foldl_cons]
    rcases List.mem_cons.mp (ih (min d a)) with h | h
    · rcases min_choice d a with hc | hc
      · rw [h, hc]; exact List.mem_cons_self _ _
      · rw [h, hc]
        exact List.mem_cons_of_mem _ (List.mem_cons_self _ _)
    · exact List.mem_cons_of_mem _ (List.mem_cons_of_mem _ h)

/-- A left fold with `min` is a lower bound of the seed-extended list. -/
theorem foldl_min_le {α : Type} [LinearOrder α] (ds : List α) (d : α) :
    ∀ x ∈ d :: ds, ds.foldl min d ≤ x := by
  induction ds generalizing d with
  | nil =>
    intro x hx
    rcases List.mem_cons.mp hx with rfl | hx
    · exact le_refl _
    · simp at hx
  | cons a t ih =>
    intro x hx
    simp only [List.foldl_cons]
    rcases List.mem_cons.mp hx with rfl | hx
    · exact le_trans (ih (min x a) _ (List.mem_cons_self _ _)) (min_le_left _ _)
    · rcases List.mem_cons.mp hx with rfl | hx
      · exact le_trans (ih (min d x) _ (List.mem_cons_self _ _)) (min_le_right _ _)
      · exact ih (min d a) x (List.mem_cons_of_mem _ hx)

/-- A left fold with `max` lands on an element of the seed-extended list. -/
theorem foldl_max_mem {α : Type} [LinearOrder α] (ds : List α) (d : α) :
    ds.foldl max d ∈ d :: ds := by
  induction ds generalizing d with
  | nil => simp
  | cons a t ih =>
    simp only [List.foldl_cons]
    rcases List.mem_cons.mp (ih (max d a)) with h | h
    · rcases max_choice d a with hc | hc
      · rw [h, hc]; exact List.mem_cons_self _ _
      · rw [h, hc]
        exact List.mem_cons_of_mem _ (List.mem_cons_self _ _)
    · exact List.mem_cons_of_mem _ (List.mem_cons_of_mem _ h)

/-- A left fold with `max` is an upper bound of the seed-extended list. -/
theorem le_foldl_max {α : Type} [LinearOrder α] (ds : List α) (d : α) :
    ∀ x ∈ d :: ds, x ≤ ds.foldl max d := by
  induction ds generalizing d with
  | nil =>
    intro x hx
    rcases List.mem_cons.mp hx with rfl | hx
    · exact le_refl _
    · simp at hx
  | cons a t ih =>
    intro x hx
    simp only [List.foldl_cons]
    rcases List.mem_cons.mp hx with rfl | hx
    · exact le_trans (le_max_left _ _) (ih (max x a) _ (List.mem_cons_self _ _))
    · rcases List.mem_cons.mp hx with rfl | hx
      · exact le_trans (le_max_right _ _) (ih (max d x) _ (List.mem_cons_self _ _))
      · exact ih (max d a) x (List.mem_cons_of_mem _ hx)

/-- Modelled from the spec: the `date_range` computation of the Preprocessing
Orchestrator (§4.2), absent from the sources — the min/max of all
successfully parsed transaction dates (ISO strings, compared
lexicographically), absent when zero transactions parsed. -/
def computeDateRange (txs : List ParsedTransaction) : Option DateRange :=
  match txs.map fun t => t.date with
  | [] => none
  | d :: ds => some { first_date := ds.foldl min d, last_date := ds.foldl max d }

/-- Modelled from the spec: the backend-side preprocessing result (§4.2),
whose `date_range` is "undefined/absent if zero transactions parsed".  The
frontend `PreprocessingResult` interface, in contrast, declares both
`date_range` fields as required strings. -/
structure BackendPreprocessingResult where
  transactions : List ParsedTransaction
  warnings : List UploadWarning
  date_range : Option DateRange
  saved_filename : String
  deriving DecidableEq, Repr

/-- Modelled from the spec: the Preprocessing Orchestrator (§4.2), absent
from the sources, applied to the bank parser's output for the uploaded file
(`parsed` rows and their `warns`) and the collision-free name under which the
raw file was persisted.  It aggregates the warnings, computes the date
range, and reports zero parsed rows as an empty result instead of failing. -/
def preprocess (parsed : List ParsedTransaction) (warns : List UploadWarning)
    (savedName : String) : BackendPreprocessingResult where
  transactions := parsed
  warnings := warns
  date_range := computeDateRange parsed
  saved_filename := savedName

/-- C2: preprocess returns the parsed rows and warnings unchanged;
`date_range` is the min/max of the parsed transaction dates — present with
`first_date` the least and `last_date` the greatest date whenever at least
one row parsed — and absent (not a failure) when zero rows parsed, so an
empty input file yields empty `transactions`, empty `warnings` and an absent
`date_range`. -/
theorem preprocess_date_range (parsed : List ParsedTransaction)
    (warns : List UploadWarning) (savedName : String) :
    (preprocess parsed warns savedName).transactions = parsed ∧
    (preprocess parsed warns savedName).warnings = warns ∧
    (parsed = [] → (preprocess parsed warns savedName).date_range = none) ∧
    (parsed ≠ [] → ∃ dr, (preprocess parsed warns savedName).date_range = some dr ∧
      dr.first_date ∈ parsed.map (fun t => t.date) ∧
      dr.last_date ∈ parsed.map (fun t => t.date) ∧
      ∀ t ∈ parsed, dr.first_date ≤ t.date ∧ t.date ≤ dr.last_date) := by
  refine ⟨rfl, rfl, ?_, ?_⟩
  · rintro rfl
    rfl
  · intro hne
    cases hp : parsed with
    | nil => exact absurd hp hne
    | cons p ps =>
      refine ⟨{ first_date := (ps.map fun t => t.date).foldl min p.date
              , last_date := (ps.map fun t => t.date).foldl max p.date }, ?_, ?_, ?_, ?_⟩
      · simp [preprocess, computeDateRange, hp]
      · simpa [hp] using foldl_min_mem (ps.map fun t => t.date) p.date
      · simpa [hp] using foldl_max_mem (ps.map fun t => t.date) p.date
      · intro t ht
        have hmem : t.date ∈ p.date :: ps.map fun t => t.date := by
          rcases List.mem_cons.mp ht with rfl | ht
          · exact List.mem_cons_self _ _
          · exact List.mem_cons_of_mem _ (List.mem_map_of_mem _ ht)
        exact ⟨foldl_min_le _ _ _ hmem, le_foldl_max _ _ _ hmem⟩

/-- C2 witness: the empty-upload boundary case and a concrete two-row upload
whose range is computed from both rows. -/
theorem preprocess_date_range_witness :
    (preprocess [] [] "empty-2024.xlsx").date_range = none ∧
    (preprocess [] [] "empty-2024.xlsx").transactions = [] ∧
    (preprocess [] [] "empty-2024.xlsx").warnings = [] ∧
    ∃ dr, (preprocess [groceriesCand, { groceriesCand with date := "2024-01-02" }]
        [] "two.xlsx").date_range = some dr ∧
      dr.first_date ∈ ([groceriesCand, { groceriesCand with date := "2024-01-02" }].map
        fun t => t.date) ∧
      dr.last_date ∈ ([groceriesCand, { groceriesCand with date := "2024-01-02" }].map
        fun t => t.date) ∧
      ∀ t ∈ [groceriesCand, { groceriesCand with date := "2024-01-02" }],
        dr.first_date ≤ t.date ∧ t.date ≤ dr.last_date := by
  refine ⟨(preprocess_date_range [] [] "empty-2024.xlsx").2.2.1 rfl,
    (preprocess_date_range [] [] "empty-2024.xlsx").1,
    (preprocess_date_range [] [] "empty-2024.xlsx").2.1, ?_⟩
  exact (preprocess_date_range
    [groceriesCand, { groceriesCand with date := "2024-01-02" }] []
    "two.xlsx").2.2.2 (by simp)

/-- Minimal JSON value model for the request bodies the client builds. -/
inductive JsonValue
  | null
  | str (s : String)
  | num (q : ℚ)
  | bool (b : Bool)
  | arr (elems : List JsonValue)
  | obj (fields : List (String × JsonValue))

/-- `JSON.stringify` of an optional string field: `null` or the string. -/
def jsonOfOptionStr : Option String → JsonValue
  | none => .null
  | some s => .str s

/-- `JSON.stringify` of a frontend `ParsedTransaction` object (fields in
interface declaration order). -/
def ParsedTransaction.toJson (t : ParsedTransaction) : JsonValue :=
  .obj [("bank_name", .str t.bank_name), ("account_name", .str t.account_name),
        ("date", .str t.date), ("amount", .num t.amount),
        ("description", jsonOfOptionStr t.description),
        ("details", jsonOfOptionStr t.details),
        ("category", jsonOfOptionStr t.category),
        ("transaction_type", jsonOfOptionStr t.transaction_type),
        ("is_special", .bool t.is_special)]

/-- An uploaded file as the client sees it (name plus raw content). -/
structure UploadFile where
  name : String
  content : String
  deriving DecidableEq, Repr

/-- A multipart form field value: a file part or a string part. -/
inductive FormValue
  | file (f : UploadFile)
  | str (s : String)
  deriving DecidableEq, Repr

/-- Body of an HTTP request issued by the client: multipart form data (the
browser supplies the content type with boundary) or a JSON body sent with
`Content-Type: application/json`. -/
inductive RequestBody
  | multipart (fields : List (String × FormValue))
  | json (contentType : String) (v : JsonValue)

/-- An HTTP request as issued by the frontend API module. -/
structure HttpRequest where
  method : String
  path : String
  body : RequestBody

/-- The response type each operation's `Promise` is declared to decode. -/
inductive UploadResponseType
  | preprocessing
  | harmonization
  | commitResult
  deriving DecidableEq, Repr

namespace uploadApi

/-- Embedded from `uploadApi.preprocess` in the frontend API module: builds a
`FormData` appending `file`, `bank_name`, `account_name` in that order and
POSTs it to `/upload/preprocess`, decoding a `PreprocessingResult`. -/
def preprocess (f : UploadFile) (bankName accountName : String) :
    HttpRequest × UploadResponseType :=
  ({ method := "POST", path := "/upload/preprocess"
   , body := .multipart
      [("file", .file f), ("bank_name", .str bankName),
       ("account_name", .str accountName)] },
   .preprocessing)

/-- Embedded from `uploadApi.harmonize`: POSTs `JSON.stringify(transactions)`
— the array itself — to `/upload/harmonize`, decoding a
`HarmonizationResult`. -/
def harmonize (transactions : List ParsedTransaction) :
    HttpRequest × UploadResponseType :=
  ({ method := "POST", path := "/upload/harmonize"
   , body := .json "application/json"
      (.arr (transactions.map ParsedTransaction.toJson)) },
   .harmonization)

/-- Embedded from `uploadApi.commit`: POSTs `JSON.stringify({transactions})`
— an object with the single field `transactions` — to `/upload/commit`,
decoding a `CommitResult`. -/
def commit (transactions : List ParsedTransaction) :
    HttpRequest × UploadResponseType :=
  ({ method := "POST", path := "/upload/commit"
   , body := .json "application/json"
      (.obj [("transactions",
        .arr (transactions.map ParsedTransaction.toJson))]) },
   .commitResult)

end uploadApi

/-- The spec's wire contract (§6) for `POST /upload/preprocess`: multipart
file + bank_name + account_name → PreprocessingResult. -/
def specPreprocessRequest (f : UploadFile) (bankName accountName : String) :
    HttpRequest × UploadResponseType :=
  ({ method := "POST", path := "/upload/preprocess"
   , body := .multipart
      [("file", .file f), ("bank_name", .str bankName),
       ("account_name", .str accountName)] },
   .preprocessing)

/-- The spec's wire contract (§6) for `POST /upload/harmonize`:
`ParsedTransaction[]` as the JSON body → HarmonizationResult. -/
def specHarmonizeRequest (transactions : List ParsedTransaction) :
    HttpRequest × UploadResponseType :=
  ({ method := "POST", path := "/upload/harmonize"
   , body := .json "application/json"
      (.arr (transactions.map ParsedTransaction.toJson)) },
   .harmonization)

/-- The spec's wire contract (§6) for `POST /upload/commit`:
`{transactions: ParsedTransaction[]}` as the JSON body → CommitResult. -/
def specCommitRequest (transactions : List ParsedTransaction) :
    HttpRequest × UploadResponseType :=
  ({ method := "POST", path := "/upload/commit"
   , body := .json "application/json"
      (.obj [("transactions",
        .arr (transactions.map ParsedTransaction.toJson))]) },
   .commitResult)

/-- C7: the three upload HTTP operations of the frontend API module issue
exactly the requests of the spec's wire contract — same method, path, body
shape and declared response type. -/
theorem uploadApi_matches_spec (f : UploadFile) (bankName accountName : String)
    (txs txs' : List ParsedTransaction) :
    uploadApi.preprocess f bankName accountName =
      specPreprocessRequest f bankName accountName ∧
    uploadApi.harmonize txs = specHarmonizeRequest txs ∧
    uploadApi.commit txs' = specCommitRequest txs' :=
  ⟨rfl, rfl, rfl⟩

/-- JS `String.prototype.trim` on the character list: strip leading and
trailing whitespace. -/
def trimChars (s : List Char) : List Char :=
  ((s.dropWhile Char.isWhitespace).reverse.dropWhile Char.isWhitespace).reverse

/-- The regex fragment `(\.\d{3})*,\d+$`: zero or more groups of a dot and
exactly three digits, then a comma and one or more digits.  The two group
shapes start with distinct characters, so the match is deterministic. -/
def euroTail : List Char → Bool
  | [] => false
  | c :: rest =>
    if c = ',' then ! rest.isEmpty && rest.all Char.isDigit
    else if c = '.' then
      match rest with
      | a :: b :: d :: rest2 =>
          a.isDigit && b.isDigit && d.isDigit && euroTail rest2
      | _ => false
    else false

/-- The test `/^\d{1,3}(\.\d{3})*,\d+$/`: one to three leading digits (the
run is maximal, because the regex requires a dot or comma right after it),
then `euroTail`. -/
def euroPat (s : List Char) : Bool :=
  decide (1 ≤ (s.takeWhile Char.isDigit).length) &&
    decide ((s.takeWhile Char.isDigit).length ≤ 3) &&
    euroTail (s.dropWhile Char.isDigit)

/-- The test `/^\d+,\d+$/`: one or more digits, a comma, one or more
digits. -/
def commaDecimalPat (s : List Char) : Bool :=
  ! (s.takeWhile Char.isDigit).isEmpty &&
    match s.dropWhile Char.isDigit with
    | ',' :: rest => ! rest.isEmpty && rest.all Char.isDigit
    | _ => false

/-- `replace(/\./g, '')`: delete every dot. -/
def removeDots (s : List Char) : List Char :=
  s.filter fun c => ! (c == '.')

/-- `replace(',', '.')` with a string pattern: replace only the first
comma. -/
def commaToDot : List Char → List Char
  | [] => []
  | c :: rest => if c = ',' then '.' :: rest else c :: commaToDot rest

/-- Digit characters to the natural number they denote (most significant
first). -/
def digitsToNat (ds : List Char) : Nat :=
  ds.foldl (fun n c => 10 * n + (c.toNat - '0'.toNat)) 0

/-- Exact value of the decimal literal with integer digits `intDs`, fraction
digits `fracDs` and decimal exponent `e`. -/
def decimalValue (intDs fracDs : List Char) (e : Int) : ℚ :=
  ((digitsToNat intDs : ℚ) + (digitsToNat fracDs : ℚ) / (10 : ℚ) ^ fracDs.length) *
    (10 : ℚ) ^ e

/-- Value of the exponent part after `e`/`E` in a JS float literal: optional
sign then digits; an exponent with no digits is not consumed (value 0). -/
def expValue (s : List Char) : Int :=
  let sgn : Int := if s.head? = some '-' then -1 else 1
  let s1 := if s.head? = some '-' ∨ s.head? = some '+' then s.drop 1 else s
  let ds := s1.takeWhile Char.isDigit
  if ds = [] then 0 else sgn * (digitsToNat ds : Int)

/-- JS `parseFloat` restricted to finite decimal values, with exact rational
arithmetic: skip leading whitespace, optional sign, integer digits, optional
fraction after a dot, optional exponent; the longest such prefix is parsed
and the rest ignored; `none` when no digit is found (`NaN`).  The
non-finite `Infinity` production is outside this embedding. -/
def parseFloatQ (s : List Char) : Option ℚ :=
  let s0 := s.dropWhile Char.isWhitespace
  let sign : ℚ := if s0.head? = some '-' then -1 else 1
  let s1 := if s0.head? = some '-' ∨ s0.head? = some '+' then s0.drop 1 else s0
  let intDs := s1.takeWhile Char.isDigit
  let s2 := s1.dropWhile Char.isDigit
  let fracDs := if s2.head? = some '.' then (s2.drop 1).takeWhile Char.isDigit else []
  let s3 := if s2.head? = some '.' then (s2.drop 1).dropWhile Char.isDigit else s2
  if intDs = [] ∧ fracDs = [] then none
  else
    let e : Int := if s3.head? = some 'e' ∨ s3.head? = some 'E' then
        expValue (s3.drop 1)
      else 0
    some (sign * decimalValue intDs fracDs e)

/-- Embedded from `parseFlexibleNumber` in `DataManagement.vue`: empty or
whitespace-only input gives `null`; a European `1.000,50` shape is parsed
with dots removed and the comma as decimal point; a plain `1000,50` shape
with the comma as decimal point; anything else through `parseFloat`, with
`NaN` reported as `null`.  (In the two pattern branches the source returns
`parseFloat` of the transformed string unconditionally; the match guarantees
it is a number.) -/
def parseFlexibleNumber (value : String) : Option ℚ :=
  if value.toList = [] ∨ trimChars value.toList = [] then none
  else if euroPat (trimChars value.toList) then
    parseFloatQ (commaToDot (removeDots (trimChars value.toList)))
  else if commaDecimalPat (trimChars value.toList) then
    parseFloatQ (commaToDot (trimChars value.toList))
  else parseFloatQ (trimChars value.toList)

/-- A digit is none of the structural characters of the float syntax. -/
theorem digit_ne {c d : Char} (h : c.isDigit = true) (hd : d.isDigit = false) :
    c ≠ d := by
  intro he
  rw [he, hd] at h
  cases h

/-- A digit is not whitespace. -/
theorem digit_not_whitespace {c : Char} (h : c.isDigit = true) :
    c.isWhitespace = false := by
  cases hw : c.isWhitespace
  · rfl
  · exfalso
    have hc : c = ' ' ∨ c = '\t' ∨ c = '\r' ∨ c = '\n' := by
      simpa [Char.isWhitespace, or_assoc] using hw
    rcases hc with rfl | rfl | rfl | rfl <;> exact absurd h (by decide)

/-- `takeWhile` over a block satisfying the predicate. -/
theorem takeWhile_append_all {α : Type} (p : α → Bool) (l r : List α)
    (hl : ∀ x ∈ l, p x = true) :
    (l ++ r).takeWhile p = l ++ r.takeWhile p := by
  induction l with
  | nil => simp
  | cons a t ih =>
    have ha := hl a (by simp)
    have ht : ∀ x ∈ t, p x = true := fun x hx => hl x (List.mem_cons_of_mem _ hx)
    simp [List.takeWhile_cons, ha, ih ht]

/-- `dropWhile` over a block satisfying the predicate. -/
theorem dropWhile_append_all {α : Type} (p : α → Bool) (l r : List α)
    (hl : ∀ x ∈ l, p x = true) :
    (l ++ r).dropWhile p = r.dropWhile p := by
  induction l with
  | nil => simp
  | cons a t ih =>
    have ha := hl a (by simp)
    have ht : ∀ x ∈ t, p x = true := fun x hx => hl x (List.mem_cons_of_mem _ hx)
    simp [List.dropWhile_cons, ha, ih ht]

theorem parseFloatQ_intfrac (intDs fracDs : List Char)
    (hi : ∀ c ∈ intDs, c.isDigit = true) (hf : ∀ c ∈ fracDs, c.isDigit = true)
    (hne : intDs ≠ []) :
    parseFloatQ (intDs ++ '.' :: fracDs) = some (decimalValue intDs fracDs 0) := by
  obtain ⟨d, ds, rfl⟩ := List.exists_cons_of_ne_nil hne
  have hd : d.isDigit = true := hi d (by simp)
  have hi' : ∀ c ∈ ds, c.isDigit = true := fun c hc => hi c (List.mem_cons_of_mem _ hc)
  have hws : d.isWhitespace = false := digit_not_whitespace hd
  have hdm : d ≠ '-' := digit_ne hd (by decide)
  have hdp : d ≠ '+' := digit_ne hd (by decide)
  have h0 : (d :: (ds ++ '.' :: fracDs)).dropWhile Char.isWhitespace
      = d :: (ds ++ '.' :: fracDs) := by
    simp [List.dropWhile_cons, hws]
  have htw : (d :: (ds ++ '.' :: fracDs)).takeWhile Char.isDigit = d :: ds := by
    simp [List.takeWhile_cons, hd, takeWhile_append_all _ _ _ hi']
  have hdw : (d :: (ds ++ '.' :: fracDs)).dropWhile Char.isDigit = '.' :: fracDs := by
    simp [List.dropWhile_cons, hd, dropWhile_append_all _ _ _ hi']
  have hfw : fracDs.takeWhile Char.isDigit = fracDs := by
    have := takeWhile_append_all Char.isDigit fracDs [] hf
    simpa using this
  have hfd : fracDs.dropWhile Char.isDigit = [] := by
    have := dropWhile_append_all Char.isDigit fracDs [] hf
    simpa using this
  simp [parseFloatQ, h0, htw, hdw, hfw, hfd, hdm, hdp]

theorem commaToDot_append (X Y : List Char) (hx : ',' ∉ X) :
    commaToDot (X ++ ',' :: Y) = X ++ '.' :: Y := by
  induction X with
  | nil => simp [commaToDot]
  | cons a t ih =>
    have ha : ¬ (a = ',') := fun haa => hx (haa ▸ List.mem_cons_self _ _)
    simp [commaToDot, ha, ih fun hm => hx (List.mem_cons_of_mem _ hm)]

theorem mem_takeWhile_digit {s : List Char} {c : Char}
    (h : c ∈ s.takeWhile Char.isDigit) : c.isDigit = true := by
  induction s with
  | nil => simp [List.takeWhile_nil] at h
  | cons a t ih =>
    rw [List.takeWhile_cons] at h
    by_cases ha : a.isDigit = true
    · rw [ha] at h
      simp at h
      rcases h with rfl | h
      · exact ha
      · exact ih h
    · rw [Bool.eq_false_iff.mpr ha] at h
      simp at h

theorem euroTail_shape (s : List Char) (h : euroTail s = true) :
    ∃ pre post, s = pre ++ ',' :: post ∧
      (∀ c ∈ pre, c = '.' ∨ c.isDigit = true) ∧ (',' ∉ pre) ∧
      post ≠ [] ∧ ∀ c ∈ post, c.isDigit = true := by
  induction s using euroTail.induct with
  | case1 => rw [euroTail.eq_def] at h; simp at h
  | case2 rest =>
    rw [euroTail.eq_def] at h
    simp at h
    exact ⟨[], rest, rfl, by simp, by simp, h.1, h.2⟩
  | case3 a b d rest2 hne ih =>
    rw [euroTail.eq_def] at h
    simp at h
    obtain ⟨⟨⟨ha, hb⟩, hd2⟩, ht⟩ := h
    obtain ⟨pre, post, heq, hpre, hnc, hpost, hpd⟩ := ih ht
    subst heq
    refine ⟨'.' :: a :: b :: d :: pre, post, rfl, ?_, ?_, hpost, hpd⟩
    · intro x hx
      simp only [List.mem_cons] at hx
      rcases hx with rfl | rfl | rfl | rfl | hx
      · exact Or.inl rfl
      · exact Or.inr ha
      · exact Or.inr hb
      · exact Or.inr hd2
      · exact hpre x hx
    · intro hx
      simp only [List.mem_cons] at hx
      rcases hx with h1 | h1 | h1 | h1 | h1
      · exact absurd h1 (by decide)
      · rw [← h1] at ha; exact absurd ha (by decide)
      · rw [← h1] at hb; exact absurd hb (by decide)
      · rw [← h1] at hd2; exact absurd hd2 (by decide)
      · exact hnc h1
  | case4 rest hno hne =>
    rcases rest with _ | ⟨a, t⟩
    · rw [euroTail.eq_def] at h; simp at h
    · rcases t with _ | ⟨b, t2⟩
      · rw [euroTail.eq_def] at h; simp at h
      · rcases t2 with _ | ⟨d, t3⟩
        · rw [euroTail.eq_def] at h; simp at h
        · exact (hno a b d t3 rfl).elim
  | case5 c rest hc hdot =>
    rw [euroTail.eq_def] at h
    simp [hc, hdot] at h

theorem euroPat_shape (s : List Char) (h : euroPat s = true) :
    ∃ ds pre post,
      s = ds ++ pre ++ ',' :: post ∧ ds = s.takeWhile Char.isDigit ∧
      ds ≠ [] ∧ (∀ c ∈ ds, c.isDigit = true) ∧
      (∀ c ∈ pre, c = '.' ∨ c.isDigit = true) ∧ (',' ∉ pre) ∧
      post ≠ [] ∧ ∀ c ∈ post, c.isDigit = true := by
  rw [euroPat] at h
  simp only [Bool.and_eq_true, decide_eq_true_eq] at h
  obtain ⟨⟨h1, h3⟩, ht⟩ := h
  obtain ⟨pre, post, heq, hpre, hnc, hpost, hpd⟩ := euroTail_shape _ ht
  refine ⟨s.takeWhile Char.isDigit, pre, post, ?_, rfl, ?_, ?_, hpre, hnc, hpost, hpd⟩
  · conv_lhs => rw [← List.takeWhile_append_dropWhile Char.isDigit s]
    rw [heq, List.append_assoc]
  · intro hnil
    rw [hnil] at h1
    simp at h1
  · intro c hc
    exact mem_takeWhile_digit hc

theorem commaDecimalPat_shape (s : List Char) (h : commaDecimalPat s = true) :
    ∃ post, s = s.takeWhile Char.isDigit ++ ',' :: post ∧
      s.takeWhile Char.isDigit ≠ [] ∧
      s.dropWhile Char.isDigit = ',' :: post ∧
      post ≠ [] ∧ ∀ c ∈ post, c.isDigit = true := by
  rw [commaDecimalPat] at h
  simp only [Bool.and_eq_true] at h
  obtain ⟨h1, h2⟩ := h
  rcases hm : s.dropWhile Char.isDigit with _ | ⟨c, rest⟩
  · rw [hm] at h2; simp at h2
  · rw [hm] at h2
    by_cases hc : c = ','
    · subst hc
      simp at h2
      refine ⟨rest, ?_, ?_, rfl, h2.1, h2.2⟩
      · conv_lhs => rw [← List.takeWhile_append_dropWhile Char.isDigit s]
        rw [hm]
      · intro hnil
        rw [hnil] at h1
        simp at h1
    · simp [hc] at h2

theorem all_digit_no_comma {l : List Char} (hl : ∀ c ∈ l, c.isDigit = true) :
    ',' ∉ l := fun hm => absurd (hl ',' hm) (by decide)

theorem all_digit_no_dot {l : List Char} (hl : ∀ c ∈ l, c.isDigit = true) :
    removeDots l = l := by
  rw [removeDots, List.filter_eq_self]
  intro c hc
  have := digit_ne (hl c hc) (d := '.') (by decide)
  simp [this]

theorem euro_eval (s : List Char) (h : euroPat s = true) :
    parseFloatQ (commaToDot (removeDots s)) =
      some (decimalValue (removeDots (s.takeWhile fun c => ! (c == ',')))
        ((s.dropWhile fun c => ! (c == ',')).drop 1) 0) := by
  obtain ⟨ds, pre, post, heq, hds, hdne, hddig, hpre, hnc, hpost, hpd⟩ :=
    euroPat_shape s h
  have hdsnc : ∀ c ∈ ds, (! (c == ',')) = true := by
    intro c hc
    have := digit_ne (hddig c hc) (d := ',') (by decide)
    simp [this]
  have hprenc : ∀ c ∈ pre, (! (c == ',')) = true := by
    intro c hc
    have : c ≠ ',' := fun hcc => hnc (hcc ▸ hc)
    simp [this]
  have htake : s.takeWhile (fun c => ! (c == ',')) = ds ++ pre := by
    rw [heq, List.append_assoc, takeWhile_append_all _ _ _ hdsnc,
      takeWhile_append_all _ _ _ hprenc]
    simp [List.takeWhile_cons]
  have hdrop : s.dropWhile (fun c => ! (c == ',')) = ',' :: post := by
    rw [heq, List.append_assoc, dropWhile_append_all _ _ _ hdsnc,
      dropWhile_append_all _ _ _ hprenc]
    simp [List.dropWhile_cons]
  have hpredig : ∀ c ∈ removeDots pre, c.isDigit = true := by
    intro c hc
    rw [removeDots, List.mem_filter] at hc
    rcases hpre c hc.1 with rfl | hd
    · simp at hc
    · exact hd
  have hXdig : ∀ c ∈ ds ++ removeDots pre, c.isDigit = true := by
    intro c hc
    rcases List.mem_append.mp hc with hc | hc
    · exact hddig c hc
    · exact hpredig c hc
  have hXnc : ',' ∉ ds ++ removeDots pre := all_digit_no_comma hXdig
  have hrd : removeDots s = (ds ++ removeDots pre) ++ ',' :: post := by
    rw [heq, List.append_assoc]
    rw [show removeDots (ds ++ (pre ++ ',' :: post))
        = removeDots ds ++ (removeDots pre ++ removeDots (',' :: post)) from by
      simp [removeDots, List.filter_append]]
    have hcp : removeDots (',' :: post) = ',' :: post := by
      rw [show removeDots (',' :: post) = ',' :: removeDots post from by
        simp [removeDots, List.filter_cons]]
      rw [all_digit_no_dot hpd]
    rw [all_digit_no_dot hddig, hcp]
    simp
  have hrt : removeDots (ds ++ pre) = ds ++ removeDots pre := by
    rw [show removeDots (ds ++ pre) = removeDots ds ++ removeDots pre from by
      simp [removeDots, List.filter_append]]
    rw [all_digit_no_dot hddig]
  rw [htake, hdrop, hrd, commaToDot_append _ _ hXnc, hrt]
  rw [parseFloatQ_intfrac _ _ hXdig hpd (by simp [hdne])]
  simp

theorem comma_eval (s : List Char) (h : commaDecimalPat s = true) :
    parseFloatQ (commaToDot s) =
      some (decimalValue (s.takeWhile Char.isDigit)
        ((s.dropWhile Char.isDigit).drop 1) 0) := by
  obtain ⟨post, heq, hne, hdrop, hpost, hpd⟩ := commaDecimalPat_shape s h
  have hddig : ∀ c ∈ s.takeWhile Char.isDigit, c.isDigit = true :=
    fun c hc => mem_takeWhile_digit hc
  have hnc : ',' ∉ s.takeWhile Char.isDigit := all_digit_no_comma hddig
  rw [hdrop]
  conv_lhs => rw [heq]
  rw [commaToDot_append _ _ hnc,
    parseFloatQ_intfrac _ _ hddig hpd hne]
  simp

theorem parseFloatQ_head_digit (d : Char) (l : List Char)
    (hd : d.isDigit = true) : ∃ q, parseFloatQ (d :: l) = some q := by
  have hws := digit_not_whitespace hd
  have hdm : d ≠ '-' := digit_ne hd (by decide)
  have hdp : d ≠ '+' := digit_ne hd (by decide)
  simp [parseFloatQ, List.dropWhile_cons, hws, hdm, hdp, List.takeWhile_cons, hd]

theorem euroPat_head_digit (s : List Char) (h : euroPat s = true) :
    ∃ d l, s = d :: l ∧ d.isDigit = true := by
  obtain ⟨ds, pre, post, heq, hds, hdne, hddig, _, _, _, _⟩ := euroPat_shape s h
  obtain ⟨d, t, rfl⟩ := List.exists_cons_of_ne_nil hdne
  exact ⟨d, t ++ pre ++ ',' :: post, by simp [heq], hddig d (by simp)⟩

theorem commaDecimalPat_head_digit (s : List Char) (h : commaDecimalPat s = true) :
    ∃ d l, s = d :: l ∧ d.isDigit = true := by
  obtain ⟨post, heq, hne, _, _, _⟩ := commaDecimalPat_shape s h
  obtain ⟨d, t, hdt⟩ := List.exists_cons_of_ne_nil hne
  refine ⟨d, t ++ ',' :: post, by rw [heq, hdt]; simp, ?_⟩
  exact mem_takeWhile_digit (hdt ▸ List.mem_cons_self d t)

/-- C8: `parseFlexibleNumber` is total (a Lean function) and returns `null`
exactly for empty/whitespace-only or unparseable input; a European
`1.000,50` shape is valued by deleting the dots and reading the comma as the
decimal point; a plain `1000,50` shape by reading the comma as the decimal
point. -/
theorem parseFlexibleNumber_spec (value : String) :
    (parseFlexibleNumber value = none ↔
      trimChars value.toList = [] ∨ parseFloatQ (trimChars value.toList) = none) ∧
    (euroPat (trimChars value.toList) = true →
      parseFlexibleNumber value = some (decimalValue
        (removeDots ((trimChars value.toList).takeWhile fun c => ! (c == ',')))
        (((trimChars value.toList).dropWhile fun c => ! (c == ',')).drop 1) 0)) ∧
    (euroPat (trimChars value.toList) = false →
      commaDecimalPat (trimChars value.toList) = true →
      parseFlexibleNumber value = some (decimalValue
        ((trimChars value.toList).takeWhile Char.isDigit)
        (((trimChars value.toList).dropWhile Char.isDigit).drop 1) 0)) := by
  by_cases ht : trimChars value.toList = []
  · have hnone : parseFlexibleNumber value = none := by
      rw [parseFlexibleNumber, if_pos (Or.inr ht)]
    refine ⟨?_, ?_, ?_⟩
    · rw [hnone]
      exact ⟨fun _ => Or.inl ht, fun _ => rfl⟩
    · intro he
      rw [ht] at he
      exact absurd he (by decide)
    · intro _ hcd
      rw [ht] at hcd
      exact absurd hcd (by decide)
  · have hv : ¬ (value.toList = []) := by
      intro he
      apply ht
      rw [he]
      rfl
    have hcond : ¬ (value.toList = [] ∨ trimChars value.toList = []) :=
      fun hh => hh.elim hv ht
    by_cases he : euroPat (trimChars value.toList) = true
    · have hrun : parseFlexibleNumber value =
          parseFloatQ (commaToDot (removeDots (trimChars value.toList))) := by
        rw [parseFlexibleNumber, if_neg hcond, if_pos he]
      obtain ⟨d, l, hdl, hd⟩ := euroPat_head_digit _ he
      obtain ⟨q, hq⟩ := parseFloatQ_head_digit d l hd
      have hsome := euro_eval _ he
      refine ⟨?_, fun _ => hrun.trans hsome, fun hf => by rw [hf] at he; cases he⟩
      rw [hrun, hsome]
      constructor
      · intro hx
        exact absurd hx (by simp)
      · intro hx
        rcases hx with hx | hx
        · exact absurd hx ht
        · rw [hdl, hq] at hx
          exact absurd hx (by simp)
    · have hef : euroPat (trimChars value.toList) = false :=
        Bool.eq_false_iff.mpr he
      by_cases hcd : commaDecimalPat (trimChars value.toList) = true
      · have hrun : parseFlexibleNumber value =
            parseFloatQ (commaToDot (trimChars value.toList)) := by
          rw [parseFlexibleNumber, if_neg hcond, if_neg he, if_pos hcd]
        obtain ⟨d, l, hdl, hd⟩ := commaDecimalPat_head_digit _ hcd
        obtain ⟨q, hq⟩ := parseFloatQ_head_digit d l hd
        have hsome := comma_eval _ hcd
        refine ⟨?_, fun hee => absurd hee he, fun _ _ => hrun.trans hsome⟩
        rw [hrun, hsome]
        constructor
        · intro hx
          exact absurd hx (by simp)
        · intro hx
          rcases hx with hx | hx
          · exact absurd hx ht
          · rw [hdl, hq] at hx
            exact absurd hx (by simp)
      · have hrun : parseFlexibleNumber value =
            parseFloatQ (trimChars value.toList) := by
          rw [parseFlexibleNumber, if_neg hcond, if_neg he, if_neg hcd]
        refine ⟨?_, fun hee => absurd hee he, fun _ hcc => absurd hcc hcd⟩
        rw [hrun]
        exact ⟨fun hx => Or.inr hx, fun hx => hx.elim (fun h1 => absurd h1 ht) id⟩

/-- C8 witness: `"1.000,50"` and `"1000,50"` both parse to `1000.5`. -/
theorem parseFlexibleNumber_spec_witness :
    parseFlexibleNumber "1.000,50" =
      some (decimalValue "1000".toList "50".toList 0) ∧
    parseFlexibleNumber "1000,50" =
      some (decimalValue "1000".toList "50".toList 0) ∧
    decimalValue "1000".toList "50".toList 0 = 2001 / 2 := by
  have h1 : digitsToNat "1000".toList = 1000 := rfl
  have h2 : digitsToNat "50".toList = 50 := rfl
  have h3 : ("50".toList).length = 2 := rfl
  refine ⟨?_, ?_, by rw [decimalValue, h1, h2, h3]; norm_num⟩
  · have h := (parseFlexibleNumber_spec "1.000,50").2.1 (by decide)
    rw [h]
    rfl
  · have h := (parseFlexibleNumber_spec "1000,50").2.2 (by decide) (by decide)
    rw [h]
    rfl

/-- Embedded from the frontend `Transaction` interface (the stored
transaction as the CRUD/dashboard screens receive it). -/
structure Transaction where
  id : Nat
  bank_name : String
  account_name : String
  date : String
  amount : ℚ
  description : Option String
  details : Option String
  category : Option String
  transaction_type : Option String
  is_special : Bool
  created_at : String
  updated_at : String
  deriving DecidableEq, Repr

/-- A cash-account entry as the dashboard keeps it
(`{bank_name, account_name}`). -/
structure CashAccount where
  bank_name : String
  account_name : String
  deriving DecidableEq, Repr

/-- Embedded from the dashboard `filters` ref. -/
structure DashboardFilters where
  excludeSpecial : Bool
  bankNames : List String
  accountNames : List String
  startDate : String
  endDate : String
  minAmount : Option ℚ
  maxAmount : Option ℚ
  deriving DecidableEq, Repr

/-- The `` `${bank}|${account}` `` key the dashboard uses for its
cash-account set membership test. -/
def accountKey (bank account : String) : String :=
  bank ++ "|" ++ account

/-- Embedded from `applyClientFilters` in `Dashboard.vue`: starting from a
copy of `allTransactions`, keep only cash-account transactions, then filter
by selected banks (when a proper non-empty subset is selected), by selected
accounts (same rule), drop special transactions when `excludeSpecial`, and
apply the `minAmount`/`maxAmount` bounds when set. -/
def applyClientFilters (cashAccounts : List CashAccount)
    (availableBanks availableAccounts : List String)
    (filters : DashboardFilters) (allTransactions : List Transaction) :
    List Transaction :=
  let cashKeys := cashAccounts.map fun a => accountKey a.bank_name a.account_name
  let f1 := allTransactions.filter fun t =>
    cashKeys.contains (accountKey t.bank_name t.account_name)
  let f2 := if 0 < filters.bankNames.length ∧
      filters.bankNames.length < availableBanks.length then
    f1.filter fun t => filters.bankNames.contains t.bank_name
  else f1
  let f3 := if 0 < filters.accountNames.length ∧
      filters.accountNames.length < availableAccounts.length then
    f2.filter fun t => filters.accountNames.contains t.account_name
  else f2
  let f4 := if filters.excludeSpecial then f3.filter fun t => ! t.is_special else f3
  let f5 := match filters.minAmount with
    | some m => f4.filter fun t => decide (m ≤ t.amount)
    | none => f4
  match filters.maxAmount with
  | some m => f5.filter fun t => decide (t.amount ≤ m)
  | none => f5

/-- Membership through a conditional filter stage. -/
theorem mem_of_condFilter {α : Type} {c : Prop} [Decidable c] {p : α → Bool}
    {l : List α} {t : α} (h : t ∈ if c then l.filter p else l) :
    t ∈ l ∧ (c → p t = true) := by
  by_cases hc : c
  · rw [if_pos hc] at h
    exact ⟨(List.mem_filter.mp h).1, fun _ => (List.mem_filter.mp h).2⟩
  · rw [if_neg hc] at h
    exact ⟨h, fun hcc => absurd hcc hc⟩

/-- A conditional filter stage is an order-preserving sublist. -/
theorem condFilter_sublist {α : Type} (c : Prop) [Decidable c] (p : α → Bool)
    (l : List α) : List.Sublist (if c then l.filter p else l) l := by
  by_cases hc : c
  · rw [if_pos hc]
    exact List.filter_sublist l
  · rw [if_neg hc]

/-- Membership through an optional-bound filter stage. -/
theorem mem_of_optionFilter {α : Type} {o : Option ℚ} {p : ℚ → α → Bool}
    {l : List α} {t : α}
    (h : t ∈ match o with | some m => l.filter (p m) | none => l) :
    t ∈ l ∧ ∀ m, o = some m → p m t = true := by
  cases o with
  | none => exact ⟨h, fun m hm => by cases hm⟩
  | some m =>
    refine ⟨(List.mem_filter.mp h).1, fun m2 hm => ?_⟩
    injection hm with hh
    subst hh
    exact (List.mem_filter.mp h).2

/-- An optional-bound filter stage is an order-preserving sublist. -/
theorem optionFilter_sublist {α : Type} (o : Option ℚ) (p : ℚ → α → Bool)
    (l : List α) :
    List.Sublist (match o with | some m => l.filter (p m) | none => l) l := by
  cases o with
  | none => exact List.Sublist.refl l
  | some m => exact List.filter_sublist l

/-- C9: for every filter state, `applyClientFilters` returns an
order-preserving sublist of `allTransactions` (in particular it never
introduces a transaction from outside it), and every retained transaction
is on a cash account, is non-special whenever `excludeSpecial` is set, and
respects the `minAmount`/`maxAmount` bounds whenever they are set. -/
theorem applyClientFilters_invariant (cashAccounts : List CashAccount)
    (availableBanks availableAccounts : List String)
    (filters : DashboardFilters) (allTransactions : List Transaction) :
    List.Sublist
      (applyClientFilters cashAccounts availableBanks availableAccounts
        filters allTransactions) allTransactions ∧
    ∀ t ∈ applyClientFilters cashAccounts availableBanks availableAccounts
        filters allTransactions,
      ((cashAccounts.map fun a => accountKey a.bank_name a.account_name).contains
        (accountKey t.bank_name t.account_name) = true) ∧
      (filters.excludeSpecial = true → t.is_special = false) ∧
      (∀ m, filters.minAmount = some m → m ≤ t.amount) ∧
      (∀ m, filters.maxAmount = some m → t.amount ≤ m) := by
  simp only [applyClientFilters]
  constructor
  · apply List.Sublist.trans (optionFilter_sublist filters.maxAmount _ _)
    apply List.Sublist.trans (optionFilter_sublist filters.minAmount _ _)
    apply List.Sublist.trans (condFilter_sublist _ _ _)
    apply List.Sublist.trans (condFilter_sublist _ _ _)
    apply List.Sublist.trans (condFilter_sublist _ _ _)
    exact List.filter_sublist _
  · intro t ht
    have h6 := mem_of_optionFilter ht
    have h5 := mem_of_optionFilter h6.1
    have h4 := mem_of_condFilter h5.1
    have h3 := mem_of_condFilter h4.1
    have h2 := mem_of_condFilter h3.1
    have h1 := List.mem_filter.mp h2.1
    refine ⟨h1.2, ?_, ?_, ?_⟩
    · intro hsp
      have := h4.2 hsp
      simpa using this
    · intro m hm
      have := h5.2 m hm
      simpa using this
    · intro m hm
      have := h6.2 m hm
      simpa using this

/-- A concrete dashboard transaction for the C9 witness. -/
def dashT1 : Transaction where
  id := 1
  bank_name := "intesa"
  account_name := "main"
  date := "2024-01-01"
  amount := 5
  description := none
  details := none
  category := none
  transaction_type := none
  is_special := false
  created_at := ""
  updated_at := ""

/-- A concrete dashboard filter state for the C9 witness. -/
def dashFilters : DashboardFilters where
  excludeSpecial := true
  bankNames := []
  accountNames := []
  startDate := ""
  endDate := ""
  minAmount := some 0
  maxAmount := some 100

/-- C9 witness: with `excludeSpecial` set and both bounds present, the
retained transaction `dashT1` satisfies every filter condition. -/
theorem applyClientFilters_invariant_witness :
    dashT1.is_special = false ∧ (0 : ℚ) ≤ dashT1.amount ∧ dashT1.amount ≤ 100 ∧
    (([⟨"intesa", "main"⟩] : List CashAccount).map fun a =>
      accountKey a.bank_name a.account_name).contains
        (accountKey dashT1.bank_name dashT1.account_name) = true := by
  have h := (applyClientFilters_invariant [⟨"intesa", "main"⟩] ["intesa"]
    ["main"] dashFilters [dashT1]).2 dashT1 (by decide)
  exact ⟨h.2.1 rfl, h.2.2.1 0 rfl, h.2.2.2 100 rfl, h.1⟩

/-- Embedded from `groupByMonth` in `Dashboard.vue`: the month key
`format(startOfMonth(parseISO(date)), 'yyyy-MM')` of a transaction — the
first seven characters of its ISO date string. -/
def monthKey (t : Transaction) : String :=
  t.date.take 7

/-- Embedded from `Array.from(grouped.keys()).sort()`: the distinct month
keys present, in ascending order. -/
def sortedMonthKeys (txs : List Transaction) : List String :=
  List.insertionSort (· ≤ ·) (txs.map monthKey).dedup

/-- Embedded from `grouped.get(month)`: the transactions of one month, in
input order. -/
def monthGroup (txs : List Transaction) (m : String) : List Transaction :=
  txs.filter fun t => monthKey t == m

/-- The total signed amount of one month's group. -/
def monthTotal (txs : List Transaction) (m : String) : ℚ :=
  ((monthGroup txs m).map fun t => t.amount).sum

/-- One row of `calculateMonthlyAggregates` (the `expenses` field is kept
negative for the chart, as in the source). -/
structure MonthlyAgg where
  month : String
  income : ℚ
  expenses : ℚ
  balance : ℚ
  deriving DecidableEq, Repr

/-- Embedded from `calculateMonthlyAggregates` in `Dashboard.vue`: sorted
month keys with the last (current/incomplete) month dropped via
`slice(0, -1)`; per month, income is the sum of positive amounts, expenses
the sum of absolute values of negative amounts (negated in the returned
record), and balance their difference. -/
def calculateMonthlyAggregates (txs : List Transaction) : List MonthlyAgg :=
  ((sortedMonthKeys txs).dropLast).map fun m =>
    let g := monthGroup txs m
    let income := ((g.filter fun t => decide (0 < t.amount)).map fun t => t.amount).sum
    let expenses := ((g.filter fun t => decide (t.amount < 0)).map fun t => |t.amount|).sum
    { month := m, income := income, expenses := -expenses
    , balance := income - expenses }

/-- One point of `calculateCumulative`. -/
structure CumulativePoint where
  month : String
  cumulative : ℚ
  deriving DecidableEq, Repr

/-- The running-total loop body of `calculateCumulative`. -/
def cumulativeFrom (txs : List Transaction) (acc : ℚ) :
    List String → List CumulativePoint
  | [] => []
  | m :: ms =>
    { month := m, cumulative := acc + monthTotal txs m } ::
      cumulativeFrom txs (acc + monthTotal txs m) ms

/-- Embedded from `calculateCumulative` in `Dashboard.vue`: running sum of
the monthly totals over the sorted months without the last. -/
def calculateCumulative (txs : List Transaction) : List CumulativePoint :=
  cumulativeFrom txs 0 ((sortedMonthKeys txs).dropLast)

/-- Sum of positives minus sum of absolute values of negatives is the plain
sum. -/
theorem sum_pos_sub_sum_negabs (g : List Transaction) :
    ((g.filter fun t => decide (0 < t.amount)).map fun t => t.amount).sum -
      ((g.filter fun t => decide (t.amount < 0)).map fun t => |t.amount|).sum =
    (g.map fun t => t.amount).sum := by
  induction g with
  | nil => simp
  | cons t ts ih =>
    rcases lt_trichotomy t.amount 0 with hlt | heq | hgt
    · rw [List.filter_cons, List.filter_cons]
      simp only [decide_eq_true_eq]
      rw [if_neg (by simp; linarith), if_pos (by simpa using hlt)]
      simp only [List.map_cons, List.sum_cons]
      rw [abs_of_neg hlt]
      rw [← ih]
      ring
    · rw [List.filter_cons, List.filter_cons]
      simp only [decide_eq_true_eq]
      rw [if_neg (by simp [heq]), if_neg (by simp [heq])]
      simp only [List.map_cons, List.sum_cons, heq]
      rw [← ih]
      ring
    · rw [List.filter_cons, List.filter_cons]
      simp only [decide_eq_true_eq]
      rw [if_pos (by simpa using hgt), if_neg (by simp; linarith)]
      simp only [List.map_cons, List.sum_cons]
      rw [← ih]
      ring

/-- In a `≤`-sorted list every element is at most the last one. -/
theorem sorted_le_getLast {α : Type} [Preorder α] :
    ∀ {l : List α}, List.Sorted (· ≤ ·) l → ∀ x ∈ l, ∀ hne : l ≠ [],
      x ≤ l.getLast hne := by
  intro l
  induction l with
  | nil => intro _ x hx; cases hx
  | cons a t ih =>
    intro hs x hx hne
    rcases List.sorted_cons.mp hs with ⟨hall, hst⟩
    cases t with
    | nil =>
      rcases List.mem_cons.mp hx with rfl | hx
      · rfl
      · cases hx
    | cons b ts =>
      rw [List.getLast_cons (by simp)]
      rcases List.mem_cons.mp hx with rfl | hx
      · exact le_trans (hall _ (List.getLast_mem _)) (le_refl _)
      · exact ih hst x hx (by simp)

/-- In a duplicate-free list, no element of `dropLast` equals the last
element. -/
theorem nodup_dropLast_ne_getLast {α : Type} {l : List α} (hnd : l.Nodup)
    (hne : l ≠ []) {x : α} (hx : x ∈ l.dropLast) : x ≠ l.getLast hne := by
  intro hxe
  have hsplit := List.dropLast_append_getLast hne
  rw [← hsplit] at hnd
  rcases List.nodup_append.mp hnd with ⟨_, _, hdisj⟩
  exact hdisj hx (by simp [hxe])

/-- Sum of a map over a filter by a disjunction of disjoint predicates. -/
theorem sum_map_filter_or {α : Type} (f : α → ℚ) (p q : α → Bool) (l : List α)
    (hdisj : ∀ x ∈ l, ¬(p x = true ∧ q x = true)) :
    ((l.filter fun x => p x || q x).map f).sum =
      ((l.filter p).map f).sum + ((l.filter q).map f).sum := by
  induction l with
  | nil => simp
  | cons a t ih =>
    have ht : ∀ x ∈ t, ¬(p x = true ∧ q x = true) :=
      fun x hx => hdisj x (List.mem_cons_of_mem _ hx)
    rw [List.filter_cons, List.filter_cons, List.filter_cons]
    cases hp : p a with
    | true =>
      have hq : q a = false := by
        cases hqa : q a with
        | false => rfl
        | true => exact absurd ⟨hp, hqa⟩ (hdisj a (List.mem_cons_self _ _))
      rw [if_pos (by simp [hp]), if_pos (by simp [hp]), if_neg (by simp [hq])]
      simp only [List.map_cons, List.sum_cons, ih ht]
      ring
    | false =>
      cases hq : q a with
      | true =>
        rw [if_pos (by simp [hp, hq]), if_neg (by simp [hp]), if_pos (by simp [hq])]
        simp only [List.map_cons, List.sum_cons, ih ht]
        ring
      | false =>
        rw [if_neg (by simp [hp, hq]), if_neg (by simp [hp]), if_neg (by simp [hq])]
        exact ih ht

/-- Summing the month totals over duplicate-free months equals summing the
amounts of the transactions whose key is among those months. -/
theorem sum_months_eq (txs : List Transaction) :
    ∀ ms : List String, ms.Nodup →
      (ms.map fun m => monthTotal txs m).sum =
        ((txs.filter fun t => ms.contains (monthKey t)).map fun t => t.amount).sum := by
  intro ms
  induction ms with
  | nil =>
    intro _
    simp [List.filter_eq_nil_iff]
  | cons m ms ih =>
    intro hnd
    rcases List.nodup_cons.mp hnd with ⟨hm, hnd2⟩
    have hfun : (fun t => (m :: ms).contains (monthKey t)) =
        fun t => (monthKey t == m) || ms.contains (monthKey t) := by
      funext t
      exact List.contains_cons
    rw [List.map_cons, List.sum_cons, ih hnd2, hfun]
    rw [sum_map_filter_or _ _ _ _ ?_]
    · rfl
    · intro x _ hx
      rcases hx with ⟨h1, h2⟩
      have : monthKey x = m := by simpa using h1
      rw [this] at h2
      exact hm (by simpa using h2)

/-- The last running total of `cumulativeFrom` is the seed plus the sum of
the month totals. -/
theorem cumulativeFrom_getLast (txs : List Transaction) :
    ∀ (ms : List String) (acc : ℚ), ms ≠ [] →
      ((cumulativeFrom txs acc ms).map fun p => p.cumulative).getLast? =
        some (acc + (ms.map fun m => monthTotal txs m).sum) := by
  intro ms
  induction ms with
  | nil => intro acc h; exact absurd rfl h
  | cons m ms ih =>
    intro acc _
    cases hm : ms with
    | nil => simp [cumulativeFrom, hm]
    | cons m2 ms2 =>
      subst hm
      rw [show cumulativeFrom txs acc (m :: m2 :: ms2) =
        { month := m, cumulative := acc + monthTotal txs m } ::
          cumulativeFrom txs (acc + monthTotal txs m) (m2 :: ms2) from rfl]
      rw [List.map_cons]
      obtain ⟨c, rest, hcr⟩ :
          ∃ c rest, ((cumulativeFrom txs (acc + monthTotal txs m)
            (m2 :: ms2)).map fun p => p.cumulative) = c :: rest := ⟨_, _, rfl⟩
      rw [hcr, List.getLast?_cons_cons, ← hcr, ih _ (by simp)]
      congr 1
      simp only [List.map_cons, List.sum_cons]
      ring

/-- The sorted month keys are duplicate-free. -/
theorem sortedMonthKeys_nodup (txs : List Transaction) :
    (sortedMonthKeys txs).Nodup :=
  ((List.perm_insertionSort _ _).nodup_iff).mpr (List.nodup_dedup _)

/-- The sorted month keys are sorted ascending. -/
theorem sortedMonthKeys_sorted (txs : List Transaction) :
    List.Sorted (· ≤ ·) (sortedMonthKeys txs) :=
  List.sorted_insertionSort _ _

/-- Every month key present among the transactions is listed. -/
theorem mem_sortedMonthKeys {txs : List Transaction} {m : String}
    (h : m ∈ txs.map monthKey) : m ∈ sortedMonthKeys txs := by
  rw [sortedMonthKeys, (List.perm_insertionSort _ _).mem_iff, List.mem_dedup]
  exact h

/-- C10: the monthly and cumulative dashboard computations use exactly the
sorted distinct month keys without the last one — so the most recent month
present is always excluded, every key being at most the dropped one; each
aggregate's balance is income minus expenses with income the sum of the
positive amounts and expenses the sum of absolute values of the negative
amounts of that month (and hence equals the month's plain amount total);
and the final cumulative value is the amount total of all transactions in
the included months. -/
theorem dashboard_monthly_cumulative (txs : List Transaction) :
    (((calculateMonthlyAggregates txs).map fun a => a.month) =
      (sortedMonthKeys txs).dropLast) ∧
    (∀ hne : sortedMonthKeys txs ≠ [],
      (∀ m ∈ txs.map monthKey, m ≤ (sortedMonthKeys txs).getLast hne) ∧
      ∀ a ∈ calculateMonthlyAggregates txs,
        a.month ≠ (sortedMonthKeys txs).getLast hne) ∧
    (∀ a ∈ calculateMonthlyAggregates txs,
      a.income = (((monthGroup txs a.month).filter fun t =>
        decide (0 < t.amount)).map fun t => t.amount).sum ∧
      a.expenses = -((((monthGroup txs a.month).filter fun t =>
        decide (t.amount < 0)).map fun t => |t.amount|).sum) ∧
      a.balance = a.income - (((monthGroup txs a.month).filter fun t =>
        decide (t.amount < 0)).map fun t => |t.amount|).sum ∧
      a.balance = monthTotal txs a.month) ∧
    ((sortedMonthKeys txs).dropLast ≠ [] →
      ((calculateCumulative txs).map fun p => p.cumulative).getLast? =
        some (((txs.filter fun t =>
          ((sortedMonthKeys txs).dropLast).contains (monthKey t)).map
            fun t => t.amount).sum)) := by
  refine ⟨?_, ?_, ?_, ?_⟩
  · rw [calculateMonthlyAggregates, List.map_map]
    exact List.map_id'' (fun x => rfl) _
  · intro hne
    constructor
    · intro m hm
      exact sorted_le_getLast (sortedMonthKeys_sorted txs) m
        (mem_sortedMonthKeys hm) hne
    · intro a ha
      rw [calculateMonthlyAggregates] at ha
      obtain ⟨m, hm, rfl⟩ := List.mem_map.mp ha
      exact nodup_dropLast_ne_getLast (sortedMonthKeys_nodup txs) hne hm
  · intro a ha
    rw [calculateMonthlyAggregates] at ha
    obtain ⟨m, hm, rfl⟩ := List.mem_map.mp ha
    refine ⟨rfl, rfl, rfl, ?_⟩
    show _ - _ = monthTotal txs m
    rw [monthTotal]
    exact sum_pos_sub_sum_negabs (monthGroup txs m)
  · intro hne
    rw [calculateCumulative, cumulativeFrom_getLast txs _ 0 hne,
      sum_months_eq txs _ ((sortedMonthKeys_nodup txs).sublist
        (List.dropLast_sublist _))]
    rw [zero_add]

/-- Two-month transaction list for the C10 witness. -/
def dashTxs : List Transaction :=
  [{ dashT1 with date := "2024-01-10", amount := 5 },
   { dashT1 with id := 2, date := "2024-01-20", amount := -2 },
   { dashT1 with id := 3, date := "2024-02-05", amount := 7 }]

/-- C10 witness: on a concrete two-month history the aggregate months are
the sorted keys without the most recent one, and the final cumulative value
is the amount total over the included months. -/
theorem dashboard_monthly_cumulative_witness :
    (((calculateMonthlyAggregates dashTxs).map fun a => a.month) =
      (sortedMonthKeys dashTxs).dropLast) ∧
    (((calculateCumulative dashTxs).map fun p => p.cumulative).getLast? =
      some (((dashTxs.filter fun t =>
        ((sortedMonthKeys dashTxs).dropLast).contains (monthKey t)).map
          fun t => t.amount).sum)) := by
  have hle : ("2024-01" : String) ≤ "2024-02" := by
    rw [String.le_iff_toList_le]
    decide
  have h1 : dashTxs.map monthKey = ["2024-01", "2024-01", "2024-02"] := by decide
  have h2 : (["2024-01", "2024-01", "2024-02"] : List String).dedup
      = ["2024-01", "2024-02"] := by decide
  have hkeys : sortedMonthKeys dashTxs = ["2024-01", "2024-02"] := by
    rw [sortedMonthKeys, h1, h2]
    simp [List.insertionSort, List.orderedInsert, hle]
  refine ⟨(dashboard_monthly_cumulative dashTxs).1, ?_⟩
  exact (dashboard_monthly_cumulative dashTxs).2.2.2 (by rw [hkeys]; simp)

/-- Embedded from the frontend `Account` interface. -/
structure Account where
  id : Nat
  bank_name : String
  account_name : String
  asset_type : Option String
  status : Bool
  created_at : String
  updated_at : String
  deriving DecidableEq, Repr

/-- Embedded from the `filteredAccounts` computed property: active accounts
of the selected bank. -/
def filteredAccounts (accounts : List Account) (bankName : String) :
    List Account :=
  accounts.filter fun a => decide (a.bank_name = bankName) && a.status

/-- The transient state of the upload stepper in `DataManagement.vue` — the
component-local refs (`currentStep`, `uploadForm`, the three results, the
pending commit list and the error refs).  The `uploading`/`harmonizing`/
`committing` flags are omitted: each backend call is modelled as one atomic
event, matching the synchronous call-and-return pipeline. -/
structure UploadState where
  currentStep : Nat
  uploadDate : String
  uploadBankName : String
  uploadAccountName : String
  uploadFile : Option UploadFile
  uploadError : Option String
  preprocessingResult : Option PreprocessingResult
  harmonizationResult : Option HarmonizationResult
  transactionsToCommit : List ParsedTransaction
  commitError : Option String
  commitResult : Option CommitResult
  deriving DecidableEq, Repr

/-- The ref initializers of the component: step 0, today's date, everything
else empty.  The state lives only in these refs — the component uses no
persistence API — so a reload recreates exactly this state. -/
def initUploadState (today : String) : UploadState where
  currentStep := 0
  uploadDate := today
  uploadBankName := ""
  uploadAccountName := ""
  uploadFile := none
  uploadError := none
  preprocessingResult := none
  harmonizationResult := none
  transactionsToCommit := []
  commitError := none
  commitResult := none

/-- Embedded from `resetUpload`: back to step 0, clearing the file, both
errors, all three results and the pending commit list (the bank/account/date
form fields are kept, as in the source). -/
def resetUpload (s : UploadState) : UploadState :=
  { s with
    currentStep := 0, uploadFile := none, uploadError := none,
    preprocessingResult := none, harmonizationResult := none,
    transactionsToCommit := [], commitError := none, commitResult := none }

/-- The checkbox edit of `is_special` on row `i` of the final review table
(`v-model="t.is_special"`). -/
def setSpecial (l : List ParsedTransaction) (i : Nat) (b : Bool) :
    List ParsedTransaction :=
  match l[i]? with
  | some t => l.set i { t with is_special := b }
  | none => l

/-- User and backend events of the upload stepper.  A successful backend
call carries its response, a failed one its error message. -/
inductive UploadEvent
  | setDate (d : String)
  | setBank (b : String)
  | setAccount (a : String)
  | selectFile (f : UploadFile)
  | nextFromSetup
  | backToSetup
  | preprocessOk (r : PreprocessingResult)
  | preprocessFail (msg : String)
  | harmonizeOk (r : HarmonizationResult)
  | harmonizeFail (msg : String)
  | cancelUpload
  | proceedToReview
  | backToHarmonize
  | toggleSpecial (i : Nat) (b : Bool)
  | commitOk (r : CommitResult)
  | commitFail (msg : String)
  | reload

/-- One transition of the upload stepper, embedded from the template's
button/input wiring and the handler functions of `DataManagement.vue`:
`none` when the event is not available in the current state (panel not
rendered, button disabled, or handler early-return).  `accounts` is the
loaded cash-account list (used by `onBankChange` auto-selection), `today`
the date a remounted component initializes to.  The `watch` on
`harmonizationResult` is folded into the `harmonizeOk` transition: it
populates `transactionsToCommit` with a value-equal clone of
`new_transactions`. -/
def stepUpload (accounts : List Account) (today : String) (s : UploadState) :
    UploadEvent → Option UploadState
  | .setDate d =>
    if s.currentStep = 0 then some { s with uploadDate := d } else none
  | .setBank b =>
    if s.currentStep = 0 then
      some { s with
        uploadBankName := b,
        uploadAccountName :=
          match filteredAccounts accounts b with
          | [a] => a.account_name
          | _ => "" }
    else none
  | .setAccount a =>
    if s.currentStep = 0 ∧ s.uploadBankName ≠ "" then
      some { s with uploadAccountName := a }
    else none
  | .selectFile f =>
    if s.currentStep = 1 then
      some { s with uploadFile := some f, uploadError := none }
    else none
  | .nextFromSetup =>
    if s.currentStep = 0 ∧ s.uploadBankName ≠ "" ∧
        s.uploadAccountName ≠ "" ∧ s.uploadDate ≠ "" then
      some { s with currentStep := 1 }
    else none
  | .backToSetup =>
    if s.currentStep = 1 then some { s with currentStep := 0 } else none
  | .preprocessOk r =>
    if s.currentStep = 1 ∧ s.uploadFile.isSome then
      some { s with
        uploadError := none, preprocessingResult := some r, currentStep := 2 }
    else none
  | .preprocessFail msg =>
    if s.currentStep = 1 ∧ s.uploadFile.isSome then
      some { s with uploadError := some msg }
    else none
  | .harmonizeOk r =>
    if s.currentStep = 2 ∧ s.preprocessingResult.isSome then
      some { s with
        harmonizationResult := some r,
        transactionsToCommit := r.new_transactions, currentStep := 3 }
    else none
  | .harmonizeFail msg =>
    if s.currentStep = 2 ∧ s.preprocessingResult.isSome then
      some { s with uploadError := some msg }
    else none
  | .cancelUpload =>
    if s.currentStep = 2 ∨ s.currentStep = 3 ∨ s.currentStep = 5 then
      some (resetUpload s)
    else none
  | .proceedToReview =>
    match s.harmonizationResult with
    | some r =>
      if s.currentStep = 3 ∧ r.new_transactions ≠ [] then
        some { s with currentStep := 4 }
      else none
    | none => none
  | .backToHarmonize =>
    if s.currentStep = 4 then some { s with currentStep := 3 } else none
  | .toggleSpecial i b =>
    if s.currentStep = 4 then
      some { s with
        transactionsToCommit := setSpecial s.transactionsToCommit i b }
    else none
  | .commitOk r =>
    if s.currentStep = 4 ∧ s.transactionsToCommit ≠ [] then
      some { s with
        commitError := none, commitResult := some r, currentStep := 5 }
    else none
  | .commitFail msg =>
    if s.currentStep = 4 ∧ s.transactionsToCommit ≠ [] then
      some { s with commitError := some msg }
    else none
  | .reload => some (initUploadState today)

/-- States of the upload stepper reachable from a fresh component. -/
inductive ReachableUpload (accounts : List Account) (today : String) :
    UploadState → Prop
  | init : ReachableUpload accounts today (initUploadState today)
  | step {s : UploadState} {e : UploadEvent} {s' : UploadState} :
      ReachableUpload accounts today s →
      stepUpload accounts today s e = some s' →
      ReachableUpload accounts today s'

/-- Equality of parsed transactions up to the `is_special` flag (the only
field the final review screen lets the user edit). -/
def eqExceptSpecial (a b : ParsedTransaction) : Prop :=
  { a with is_special := b.is_special } = b

/-- A pending commit list agrees elementwise with a harmonization output up
to `is_special`. -/
def AgreesExceptSpecial (l n : List ParsedTransaction) : Prop :=
  l.length = n.length ∧
    ∀ (i : Nat) (h1 : i < l.length) (h2 : i < n.length),
      eqExceptSpecial l[i] n[i]

theorem agreesExceptSpecial_refl (l : List ParsedTransaction) :
    AgreesExceptSpecial l l :=
  ⟨rfl, fun _ _ _ => rfl⟩

/-- Editing `is_special` of one row preserves agreement up to
`is_special`. -/
theorem agreesExceptSpecial_setSpecial {l n : List ParsedTransaction}
    (h : AgreesExceptSpecial l n) (i : Nat) (b : Bool) :
    AgreesExceptSpecial (setSpecial l i b) n := by
  rw [setSpecial]
  cases hl : l[i]? with
  | none => exact h
  | some t =>
    obtain ⟨hlen, helem⟩ := h
    obtain ⟨hi, hit⟩ := List.getElem?_eq_some_iff.mp hl
    refine ⟨by rw [List.length_set]; exact hlen, ?_⟩
    intro j h1 h2
    rw [List.length_set] at h1
    by_cases hij : i = j
    · subst hij
      rw [List.getElem_set_self]
      have := helem i hi h2
      rw [hit] at this
      rw [eqExceptSpecial] at this ⊢
      rw [← this]
    · rw [List.getElem_set_ne hij]
      exact helem j h1 h2

/-- Helper: a step equation contradicts a small bound. -/
theorem step_not_le {n k : Nat} (h : n = k) (hc : n ≤ 1) (hk : ¬ k ≤ 1) :
    False :=
  hk (h ▸ hc)

/-- The inductive invariant of the upload stepper: before preprocessing has
run nothing downstream exists, and the pending commit list always mirrors
the harmonization result's `new_transactions` up to `is_special` edits. -/
def UploadInv (s : UploadState) : Prop :=
  (s.currentStep ≤ 1 →
    s.preprocessingResult = none ∧ s.harmonizationResult = none ∧
    s.transactionsToCommit = [] ∧ s.commitResult = none) ∧
  ((s.harmonizationResult = none ∧ s.transactionsToCommit = []) ∨
    (∃ hr, s.harmonizationResult = some hr ∧
      AgreesExceptSpecial s.transactionsToCommit hr.new_transactions))

/-- Every reachable stepper state satisfies the invariant. -/
theorem uploadInv_reachable (accounts : List Account) (today : String) :
    ∀ s, ReachableUpload accounts today s → UploadInv s := by
  intro s hs
  induction hs with
  | init => exact ⟨fun _ => ⟨rfl, rfl, rfl, rfl⟩, Or.inl ⟨rfl, rfl⟩⟩
  | step hr hstep ih =>
    rename_i s0 e s1
    cases e with
    | setDate d =>
      rw [stepUpload] at hstep
      split at hstep
      · injection hstep with h1
        subst h1
        exact ih
      · cases hstep
    | setBank b =>
      rw [stepUpload] at hstep
      split at hstep
      · injection hstep with h1
        subst h1
        exact ih
      · cases hstep
    | setAccount a =>
      rw [stepUpload] at hstep
      split at hstep
      · injection hstep with h1
        subst h1
        exact ih
      · cases hstep
    | selectFile f =>
      rw [stepUpload] at hstep
      split at hstep
      · injection hstep with h1
        subst h1
        exact ih
      · cases hstep
    | nextFromSetup =>
      rw [stepUpload] at hstep
      split at hstep
      · rename_i hguard
        injection hstep with h1
        subst h1
        exact ⟨fun _ => ih.1 (by simp [hguard.1]), ih.2⟩
      · cases hstep
    | backToSetup =>
      rw [stepUpload] at hstep
      split at hstep
      · rename_i hguard
        injection hstep with h1
        subst h1
        exact ⟨fun _ => ih.1 (by simp [hguard]), ih.2⟩
      · cases hstep
    | preprocessOk r =>
      rw [stepUpload] at hstep
      split at hstep
      · injection hstep with h1
        subst h1
        exact ⟨fun hc => absurd (show (2 : Nat) ≤ 1 from hc) (by decide), ih.2⟩
      · cases hstep
    | preprocessFail msg =>
      rw [stepUpload] at hstep
      split at hstep
      · injection hstep with h1
        subst h1
        exact ih
      · cases hstep
    | harmonizeOk r =>
      rw [stepUpload] at hstep
      split at hstep
      · injection hstep with h1
        subst h1
        exact ⟨fun hc => absurd (show (3 : Nat) ≤ 1 from hc) (by decide),
          Or.inr ⟨r, rfl, agreesExceptSpecial_refl _⟩⟩
      · cases hstep
    | harmonizeFail msg =>
      rw [stepUpload] at hstep
      split at hstep
      · injection hstep with h1
        subst h1
        exact ih
      · cases hstep
    | cancelUpload =>
      rw [stepUpload] at hstep
      split at hstep
      · injection hstep with h1
        subst h1
        exact ⟨fun _ => ⟨rfl, rfl, rfl, rfl⟩, Or.inl ⟨rfl, rfl⟩⟩
      · cases hstep
    | proceedToReview =>
      rw [stepUpload] at hstep
      split at hstep
      · split at hstep
        · injection hstep with h1
          subst h1
          exact ⟨fun hc => absurd (show (4 : Nat) ≤ 1 from hc) (by decide), ih.2⟩
        · cases hstep
      · cases hstep
    | backToHarmonize =>
      rw [stepUpload] at hstep
      split at hstep
      · injection hstep with h1
        subst h1
        exact ⟨fun hc => absurd (show (3 : Nat) ≤ 1 from hc) (by decide), ih.2⟩
      · cases hstep
    | toggleSpecial i b =>
      rw [stepUpload] at hstep
      split at hstep
      · rename_i hguard
        injection hstep with h1
        subst h1
        refine ⟨fun hc => (step_not_le hguard hc (by decide)).elim, ?_⟩
        rcases ih.2 with ⟨hn, hl⟩ | ⟨hr2, heq, hag⟩
        · exact Or.inl ⟨hn, by show setSpecial s0.transactionsToCommit i b = []; rw [hl]; rfl⟩
        · exact Or.inr ⟨hr2, heq, agreesExceptSpecial_setSpecial hag i b⟩
      · cases hstep
    | commitOk r =>
      rw [stepUpload] at hstep
      split at hstep
      · injection hstep with h1
        subst h1
        exact ⟨fun hc => absurd (show (5 : Nat) ≤ 1 from hc) (by decide), ih.2⟩
      · cases hstep
    | commitFail msg =>
      rw [stepUpload] at hstep
      split at hstep
      · injection hstep with h1
        subst h1
        exact ih
      · cases hstep
    | reload =>
      rw [stepUpload] at hstep
      injection hstep with h1
      subst h1
      exact ⟨fun _ => ⟨rfl, rfl, rfl, rfl⟩, Or.inl ⟨rfl, rfl⟩⟩

/-- The two events that invoke `uploadApi.commit` (success and failure of
the same call). -/
def isCommitEvent : UploadEvent → Prop
  | .commitOk _ => True
  | .commitFail _ => True
  | _ => False

/-- C5: in every reachable state of the upload flow, whenever a commit call
is invoked (either outcome), the stepper is on the final review panel with a
non-empty pending list, harmonize has already produced a result, and the
list passed to commit agrees elementwise with that result's
`new_transactions` — each element equal except possibly its `is_special`
flag edited during review.  The Commit Stage itself receives exactly this
list and performs no deduplication. -/
theorem upload_commit_from_new_transactions (accounts : List Account)
    (today : String) (s : UploadState)
    (hs : ReachableUpload accounts today s) (e : UploadEvent)
    (s' : UploadState) (hstep : stepUpload accounts today s e = some s')
    (hev : isCommitEvent e) :
    s.currentStep = 4 ∧ s.transactionsToCommit ≠ [] ∧
    ∃ hr, s.harmonizationResult = some hr ∧
      AgreesExceptSpecial s.transactionsToCommit hr.new_transactions := by
  have hinv := uploadInv_reachable accounts today s hs
  cases e with
  | commitOk r =>
    rw [stepUpload] at hstep
    split at hstep
    · rename_i hguard
      rcases hinv.2 with ⟨_, hl⟩ | ⟨hr2, heq, hag⟩
      · exact absurd hl hguard.2
      · exact ⟨hguard.1, hguard.2, hr2, heq, hag⟩
    · cases hstep
  | commitFail msg =>
    rw [stepUpload] at hstep
    split at hstep
    · rename_i hguard
      rcases hinv.2 with ⟨_, hl⟩ | ⟨hr2, heq, hag⟩
      · exact absurd hl hguard.2
      · exact ⟨hguard.1, hguard.2, hr2, heq, hag⟩
    · cases hstep
  | setDate d => exact (hev : False).elim
  | setBank b => exact (hev : False).elim
  | setAccount a => exact (hev : False).elim
  | selectFile f => exact (hev : False).elim
  | nextFromSetup => exact (hev : False).elim
  | backToSetup => exact (hev : False).elim
  | preprocessOk r => exact (hev : False).elim
  | preprocessFail msg => exact (hev : False).elim
  | harmonizeOk r => exact (hev : False).elim
  | harmonizeFail msg => exact (hev : False).elim
  | cancelUpload => exact (hev : False).elim
  | proceedToReview => exact (hev : False).elim
  | backToHarmonize => exact (hev : False).elim
  | toggleSpecial i b => exact (hev : False).elim
  | reload => exact (hev : False).elim

/-- The spec's five upload states as a function of the six stepper panels:
panels 0/1/2 are Setup/FileSelected/Preprocessed, panels 3 and 4
(harmonization review and final pre-commit review) are both the Harmonized
state, panel 5 is Committed. -/
def specStage (uiStep : Nat) : Nat :=
  if uiStep ≤ 3 then uiStep else if uiStep = 4 then 3 else 4

/-- C6: in every reachable state, every transition that moves backward in
the spec state machine Setup → FileSelected → Preprocessed → Harmonized →
Committed leaves a state with no preprocessing result, no harmonization
result, an empty pending commit list and no commit result — all downstream
transients discarded; and a reload always yields the fresh initial state
(no in-progress upload state is persisted: the flow lives in component
refs only). -/
theorem upload_back_discards (accounts : List Account) (today : String)
    (s : UploadState) (hs : ReachableUpload accounts today s) :
    (∀ (e : UploadEvent) (s' : UploadState),
      stepUpload accounts today s e = some s' →
      specStage s'.currentStep < specStage s.currentStep →
      s'.preprocessingResult = none ∧ s'.harmonizationResult = none ∧
      s'.transactionsToCommit = [] ∧ s'.commitResult = none) ∧
    stepUpload accounts today s .reload = some (initUploadState today) := by
  have hinv := uploadInv_reachable accounts today s hs
  refine ⟨?_, rfl⟩
  intro e s' hstep hlt
  cases e with
  | setDate d =>
    rw [stepUpload] at hstep
    split at hstep
    · injection hstep with h1
      subst h1
      exact absurd hlt (lt_irrefl _)
    · cases hstep
  | setBank b =>
    rw [stepUpload] at hstep
    split at hstep
    · injection hstep with h1
      subst h1
      exact absurd hlt (lt_irrefl _)
    · cases hstep
  | setAccount a =>
    rw [stepUpload] at hstep
    split at hstep
    · injection hstep with h1
      subst h1
      exact absurd hlt (lt_irrefl _)
    · cases hstep
  | selectFile f =>
    rw [stepUpload] at hstep
    split at hstep
    · injection hstep with h1
      subst h1
      exact absurd hlt (lt_irrefl _)
    · cases hstep
  | nextFromSetup =>
    rw [stepUpload] at hstep
    split at hstep
    · rename_i hguard
      injection hstep with h1
      subst h1
      have hlt2 : specStage 1 < specStage s.currentStep := hlt
      rw [hguard.1] at hlt2
      exact absurd hlt2 (by decide)
    · cases hstep
  | backToSetup =>
    rw [stepUpload] at hstep
    split at hstep
    · rename_i hguard
      injection hstep with h1
      subst h1
      exact hinv.1 (by simp [hguard])
    · cases hstep
  | preprocessOk r =>
    rw [stepUpload] at hstep
    split at hstep
    · rename_i hguard
      injection hstep with h1
      subst h1
      have hlt2 : specStage 2 < specStage s.currentStep := hlt
      rw [hguard.1] at hlt2
      exact absurd hlt2 (by decide)
    · cases hstep
  | preprocessFail msg =>
    rw [stepUpload] at hstep
    split at hstep
    · injection hstep with h1
      subst h1
      exact absurd hlt (lt_irrefl _)
    · cases hstep
  | harmonizeOk r =>
    rw [stepUpload] at hstep
    split at hstep
    · rename_i hguard
      injection hstep with h1
      subst h1
      have hlt2 : specStage 3 < specStage s.currentStep := hlt
      rw [hguard.1] at hlt2
      exact absurd hlt2 (by decide)
    · cases hstep
  | harmonizeFail msg =>
    rw [stepUpload] at hstep
    split at hstep
    · injection hstep with h1
      subst h1
      exact absurd hlt (lt_irrefl _)
    · cases hstep
  | cancelUpload =>
    rw [stepUpload] at hstep
    split at hstep
    · injection hstep with h1
      subst h1
      exact ⟨rfl, rfl, rfl, rfl⟩
    · cases hstep
  | proceedToReview =>
    rw [stepUpload] at hstep
    split at hstep
    · split at hstep
      · rename_i hguard
        injection hstep with h1
        subst h1
        have hlt2 : specStage 4 < specStage s.currentStep := hlt
        rw [hguard.1] at hlt2
        exact absurd hlt2 (by decide)
      · cases hstep
    · cases hstep
  | backToHarmonize =>
    rw [stepUpload] at hstep
    split at hstep
    · rename_i hguard
      injection hstep with h1
      subst h1
      have hlt2 : specStage 3 < specStage s.currentStep := hlt
      rw [hguard] at hlt2
      exact absurd hlt2 (by decide)
    · cases hstep
  | toggleSpecial i b =>
    rw [stepUpload] at hstep
    split at hstep
    · injection hstep with h1
      subst h1
      exact absurd hlt (lt_irrefl _)
    · cases hstep
  | commitOk r =>
    rw [stepUpload] at hstep
    split at hstep
    · rename_i hguard
      injection hstep with h1
      subst h1
      have hlt2 : specStage 5 < specStage s.currentStep := hlt
      rw [hguard.1] at hlt2
      exact absurd hlt2 (by decide)
    · cases hstep
  | commitFail msg =>
    rw [stepUpload] at hstep
    split at hstep
    · injection hstep with h1
      subst h1
      exact absurd hlt (lt_irrefl _)
    · cases hstep
  | reload =>
    rw [stepUpload] at hstep
    injection hstep with h1
    subst h1
    exact ⟨rfl, rfl, rfl, rfl⟩

/-- Concrete loaded account for the stepper witnesses. -/
def wAccount : Account where
  id := 1
  bank_name := "intesa"
  account_name := "main"
  asset_type := some "cash"
  status := true
  created_at := ""
  updated_at := ""

/-- Concrete account list for the stepper witnesses. -/
def wAccounts : List Account := [wAccount]

/-- Concrete mount date for the stepper witnesses. -/
def wToday : String := "2024-03-01"

/-- Concrete uploaded file for the stepper witnesses. -/
def wFile : UploadFile where
  name := "marzo.xlsx"
  content := "raw"

/-- Concrete preprocessing response for the stepper witnesses. -/
def wPre : PreprocessingResult where
  transactions := [groceriesCand]
  warnings := []
  date_range := { first_date := "2024-01-05", last_date := "2024-01-05" }
  saved_filename := "saved.xlsx"

/-- Concrete harmonization response for the stepper witnesses. -/
def wHarm : HarmonizationResult where
  new_transactions := [groceriesCand]
  duplicate_transactions := []

/-- Stepper state after selecting the bank (account auto-selected). -/
def wS1 : UploadState :=
  { initUploadState wToday with
    uploadBankName := "intesa", uploadAccountName := "main" }

/-- Stepper state on the file panel. -/
def wS2 : UploadState := { wS1 with currentStep := 1 }

/-- Stepper state with the file selected. -/
def wS3 : UploadState := { wS2 with uploadFile := some wFile }

/-- Stepper state after a successful preprocess call. -/
def wS4 : UploadState :=
  { wS3 with preprocessingResult := some wPre, currentStep := 2 }

/-- Stepper state after a successful harmonize call. -/
def wS5 : UploadState :=
  { wS4 with
    harmonizationResult := some wHarm,
    transactionsToCommit := wHarm.new_transactions, currentStep := 3 }

/-- Stepper state on the final review panel. -/
def wS6 : UploadState := { wS5 with currentStep := 4 }

/-- The harmonized review state is reachable from a fresh component. -/
theorem wS5_reachable : ReachableUpload wAccounts wToday wS5 := by
  have h0 : ReachableUpload wAccounts wToday (initUploadState wToday) :=
    ReachableUpload.init
  have h1 := ReachableUpload.step h0
    (show stepUpload wAccounts wToday (initUploadState wToday)
      (.setBank "intesa") = some wS1 from by rfl)
  have h2 := ReachableUpload.step h1
    (show stepUpload wAccounts wToday wS1 .nextFromSetup = some wS2 from by rfl)
  have h3 := ReachableUpload.step h2
    (show stepUpload wAccounts wToday wS2 (.selectFile wFile) = some wS3
      from by rfl)
  have h4 := ReachableUpload.step h3
    (show stepUpload wAccounts wToday wS3 (.preprocessOk wPre) = some wS4
      from by rfl)
  exact ReachableUpload.step h4
    (show stepUpload wAccounts wToday wS4 (.harmonizeOk wHarm) = some wS5
      from by rfl)

/-- The final review state is reachable. -/
theorem wS6_reachable : ReachableUpload wAccounts wToday wS6 :=
  ReachableUpload.step wS5_reachable
    (show stepUpload wAccounts wToday wS5 .proceedToReview = some wS6
      from by rfl)

/-- C5 witness: on the concrete reachable final-review state, the commit
call is enabled and its payload agrees with the harmonization result's
`new_transactions`. -/
theorem upload_commit_from_new_transactions_witness :
    wS6.currentStep = 4 ∧ wS6.transactionsToCommit ≠ [] ∧
    ∃ hr, wS6.harmonizationResult = some hr ∧
      AgreesExceptSpecial wS6.transactionsToCommit hr.new_transactions :=
  upload_commit_from_new_transactions wAccounts wToday wS6 wS6_reachable
    (.commitOk { inserted_count := 1, message := "ok" })
    { wS6 with
      commitResult := some { inserted_count := 1, message := "ok" },
      currentStep := 5 }
    (by rfl) trivial

/-- C6 witness: cancelling from the concrete harmonized state is a backward
transition and leaves no transient results, and reloading it yields the
fresh initial state. -/
theorem upload_back_discards_witness :
    ((resetUpload wS5).preprocessingResult = none ∧
      (resetUpload wS5).harmonizationResult = none ∧
      (resetUpload wS5).transactionsToCommit = [] ∧
      (resetUpload wS5).commitResult = none) ∧
    stepUpload wAccounts wToday wS5 .reload = some (initUploadState wToday) := by
  have h := upload_back_discards wAccounts wToday wS5 wS5_reachable
  exact ⟨h.1 .cancelUpload (resetUpload wS5) (by rfl) (by decide), h.2⟩
